import Mathlib

/-!
Shallow embedding of the pathfinder2 flow engine
(src/types/edge.rs, src/graph/mod.rs, src/graph/adjacencies.rs,
src/graph/flow.rs) and proofs about the specification's claims.

Modelling conventions:
  * `Address` is modelled as `Nat` (an opaque totally ordered id).
  * `U256` is modelled as `Nat`; subtraction is Nat subtraction
    (the spec, section 3, allows saturating subtraction; every
    subtraction in the live code paths is guarded to not underflow).
    `U256::MAX` is `2 ^ 256 - 1`.  The signed deltas stored in the
    residual overlay (`capacity_adjustments`) are modelled as `Int`,
    matching the spec's `SignedDelta`.
  * Rust `HashMap`s are modelled as association lists iterated in
    insertion order (`insert` of an existing key updates in place);
    `BTreeMap`s are association lists kept sorted by key.  Every spot
    where the Rust code's behaviour depends on HashMap iteration order
    is noted where it matters.
  * Every Rust loop / recursion that is not structurally terminating
    gets a fuel parameter; running out of fuel yields `Res.fuelOut`
    (models divergence / stack overflow), a Rust `panic!` / failed
    `assert!` / failed `unwrap` / out-of-bounds index yields
    `Res.panicked`.
-/

/-- Address: opaque fixed-width identifier, modelled as Nat. -/
abbrev Addr := Nat

/-- Modelled from the spec: the lifted-graph node enum `Node` lives in
`src/graph/mod.rs`, which in this repository is inconsistent with its
users (it declares only two variants while `flow.rs` and
`adjacencies.rs` use three: `Node::Node`, `Node::BalanceNode(a, t)`,
`Node::TrustNode(to, t)`).  The three-variant form actually used by the
code, with the spec's section 4.2 order `Plain < Balance < Trust`, is
modelled here. -/
inductive Node where
  | node (a : Addr)
  | balanceNode (a : Addr) (t : Addr)
  | trustNode (a : Addr) (t : Addr)
deriving DecidableEq, Repr

/-- Variant tag of a node, for the derived lexicographic order. -/
def nodeTag : Node → Nat
  | .node _ => 0
  | .balanceNode _ _ => 1
  | .trustNode _ _ => 2

/-- First address component of a node. -/
def nodeFst : Node → Nat
  | .node a => a
  | .balanceNode a _ => a
  | .trustNode a _ => a

/-- Second address component of a node (0 for a plain node). -/
def nodeSnd : Node → Nat
  | .node _ => 0
  | .balanceNode _ t => t
  | .trustNode _ t => t

/-- Modelled from the spec: the total order on `Node` (spec section 4.2,
"variant tag first (`Plain < Balance < Trust`), then component
addresses"); the Rust `derive(Ord)` order of the three-variant enum. -/
def nodeLtB (x y : Node) : Bool :=
  decide (nodeTag x < nodeTag y) ||
    (decide (nodeTag x = nodeTag y) &&
      (decide (nodeFst x < nodeFst y) ||
        (decide (nodeFst x = nodeFst y) && decide (nodeSnd x < nodeSnd y))))

/-- Edge of the capacity network (struct `Edge` as used by
`src/graph/flow.rs`: `from`, `to`, `token`, `capacity`).  `from` is a
Lean keyword, so the field is named `from_`. -/
structure Edge where
  from_ : Addr
  to_ : Addr
  token : Addr
  capacity : Nat
deriving DecidableEq, Repr

/-- Lexicographic strict order on edges, the Rust `derive(Ord)` order
(`from`, `to`, `token`, `capacity`). -/
def edgeLtB (x y : Edge) : Bool :=
  decide (x.from_ < y.from_) ||
    (decide (x.from_ = y.from_) &&
      (decide (x.to_ < y.to_) ||
        (decide (x.to_ = y.to_) &&
          (decide (x.token < y.token) ||
            (decide (x.token = y.token) && decide (x.capacity < y.capacity))))))

/-- Association-list lookup (first matching key), the model of
`HashMap::get`. -/
def lookupA {α β : Type} [DecidableEq α] : List (α × β) → α → Option β
  | [], _ => none
  | (k, v) :: rest, k' => if k = k' then some v else lookupA rest k'

/-- Association-list insert: replaces the value in place if the key is
present, else appends (the model of `HashMap::insert` with
insertion-order iteration). -/
def insertA {α β : Type} [DecidableEq α] : List (α × β) → α → β → List (α × β)
  | [], k, v => [(k, v)]
  | (k', v') :: rest, k, v =>
    if k' = k then (k, v) :: rest else (k', v') :: insertA rest k v

/-- Association-list in-place update, a no-op if the key is absent
(callers in the modelled code guarantee presence). -/
def updateA {α β : Type} [DecidableEq α] : List (α × β) → α → (β → β) → List (α × β)
  | [], _, _ => []
  | (k', v') :: rest, k, f =>
    if k' = k then (k', f v') :: rest else (k', v') :: updateA rest k f

/-- Association-list removal of a key (the model of `HashMap::remove`). -/
def removeA {α β : Type} [DecidableEq α] : List (α × β) → α → List (α × β)
  | [], _ => []
  | (k', v') :: rest, k =>
    if k' = k then rest else (k', v') :: removeA rest k

/-- First minimum of a list under a strict comparison, the model of
Rust `Iterator::min_by_key` (on ties the first element wins). -/
def minBy {α : Type} (lt : α → α → Bool) : List α → Option α
  | [] => none
  | x :: rest =>
    match minBy lt rest with
    | none => some x
    | some y => if lt y x then some y else some x

/-- Result of a modelled Rust computation: normal return, a `panic!`
(failed assert / unwrap / index), or fuel exhaustion standing for
divergence. -/
inductive Res (α : Type) where
  | ok (a : α)
  | panicked
  | fuelOut
deriving DecidableEq, Repr

/-- Whether a modelled computation returned normally. -/
def Res.isOk {α : Type} : Res α → Bool
  | .ok _ => true
  | _ => false

/-- Maximal U256 value (`U256::MAX`). -/
def U256MAX : Nat := 2 ^ 256 - 1

/-- The edge database: `EdgeDB` (src/types/edge.rs) keeps the edge rows
in insertion order; the claims only use construction plus the indexed
`outgoing` / `incoming` reads, so the database is modelled by its row
list. -/
abbrev EdgeDB := List Edge

/-- Rows with the given `from` address and nonzero capacity, in
insertion order (`EdgeDB::outgoing`: the index preserves insertion
order and lookups filter zero-capacity rows). -/
def outgoing (db : EdgeDB) (a : Addr) : List Edge :=
  db.filter (fun e => decide (e.from_ = a) && decide (e.capacity ≠ 0))

/-- Rows with the given `to` address and nonzero capacity, in insertion
order (`EdgeDB::incoming`). -/
def incoming (db : EdgeDB) (a : Addr) : List Edge :=
  db.filter (fun e => decide (e.to_ = a) && decide (e.capacity ≠ 0))

/-- Flow-distribution / used-edges map `HashMap<Node, HashMap<Node, U256>>`. -/
abbrev FMap := List (Node × List (Node × Nat))

/-- Residual overlay `capacity_adjustments : HashMap<Node, HashMap<Node, U256>>`;
the deltas are signed (DFS adds negative forward adjustments), modelled
as `Int` per the spec's `SignedDelta`. -/
abbrev OMap := List (Node × List (Node × Int))

/-- Level map produced by BFS (`HashMap<Node, usize>`). -/
abbrev Levels := List (Node × Nat)

/-- Lazy adjacency materialisation `Adjacencies::adjacencies_from`
(src/graph/adjacencies.rs lines 189-238).  Note that this function
reads only the edge database (the lazy cache is semantically
transparent); it does NOT read `capacity_adjustments`. -/
def adjacenciesFrom (db : EdgeDB) (nd : Node) : List (Node × Nat) :=
  match nd with
  | .node a =>
    (outgoing db a).foldl
      (fun acc e =>
        match lookupA acc (.balanceNode e.from_ e.token) with
        | some c =>
          insertA acc (.balanceNode e.from_ e.token)
            (if c < e.capacity then e.capacity else c)
        | none => acc ++ [(.balanceNode e.from_ e.token, e.capacity)])
      []
  | .balanceNode a token =>
    (outgoing db a).foldl
      (fun acc e =>
        if e.from_ = a ∧ e.token = token then
          insertA acc (.trustNode e.to_ e.token) e.capacity
        else acc)
      []
  | .trustNode tto token =>
    let inc := incoming db tto
    let cap := inc.foldl
      (fun c e =>
        if e.token = token then
          (if tto = token then c + e.capacity else max c e.capacity)
        else c)
      0
    if inc.isEmpty then [] else [(.node tto, cap)]

/-- `Adjacencies::adjust_capacity`: add a signed delta to
`capacity_adjustments[a][b]` (entry-or-default on both levels). -/
def adjustCapacity (o : OMap) (a b : Node) (delta : Int) : OMap :=
  let inner := (lookupA o a).getD []
  insertA o a (insertA inner b ((lookupA inner b).getD 0 + delta))

/-- Update of the flow distribution in the DFS
(`flow_distribution[current][neighbor] += path_flow`). -/
def addFlow (d : FMap) (a b : Node) (f : Nat) : FMap :=
  let inner := (lookupA d a).getD []
  insertA d a (insertA inner b ((lookupA inner b).getD 0 + f))

/-- `Adjacencies::outgoing_edges_sorted_by_capacity` (lines 154-167):
nominal adjacencies merged with the signed overlay, zero entries
filtered, sorted by descending capacity then ascending node.  This is
the only reader that applies `capacity_adjustments`; it is dead code
(`#[allow(dead_code)]`) in this repository. -/
def sortedInsertByCap (x : Node × Int) : List (Node × Int) → List (Node × Int)
  | [] => [x]
  | y :: rest =>
    if decide (y.2 < x.2) || (decide (x.2 = y.2) && nodeLtB x.1 y.1) then
      x :: y :: rest
    else y :: sortedInsertByCap x rest

/-- Effective outgoing view used by `outgoing_edges_sorted_by_capacity`:
nominal capacity plus accumulated signed adjustments. -/
def outgoingEdgesSortedByCapacity (db : EdgeDB) (o : OMap) (nd : Node) :
    List (Node × Int) :=
  let nominal : List (Node × Int) :=
    (adjacenciesFrom db nd).map (fun p => (p.1, (p.2 : Int)))
  let merged :=
    ((lookupA o nd).getD []).foldl
      (fun acc nc =>
        insertA acc nc.1 ((lookupA acc nc.1).getD 0 + nc.2))
      nominal
  (merged.filter (fun p => decide (p.2 ≠ 0))).foldl
    (fun acc x => sortedInsertByCap x acc) []

/-- One BFS expansion step: fold the materialised neighbours of the
current node into the level map and the queue additions
(src/graph/adjacencies.rs lines 75-81). -/
def bfsExpand (db : EdgeDB) (cur : Node) (curLev : Nat) (levels : Levels) :
    Levels × List Node :=
  (adjacenciesFrom db cur).foldl
    (fun acc mc =>
      if (lookupA acc.1 mc.1).isNone ∧ 0 < mc.2 then
        (acc.1 ++ [(mc.1, curLev + 1)], acc.2 ++ [mc.1])
      else acc)
    (levels, [])

/-- Queue loop of `Adjacencies::bfs_level_graph` (lines 69-82).  A node
whose level already reached `max_distance` is popped but not expanded. -/
def bfsLoop (db : EdgeDB) (maxDist : Option Nat) :
    Nat → List Node → Levels → Res Levels
  | 0 => fun _ _ => .fuelOut
  | f + 1 => fun q levels =>
    match q with
    | [] => .ok levels
    | cur :: rest =>
      let curLev := (lookupA levels cur).getD 0
      let skip := match maxDist with
        | some md => decide (md ≤ curLev)
        | none => false
      if skip then bfsLoop db maxDist f rest levels
      else
        let step := bfsExpand db cur curLev levels
        bfsLoop db maxDist f (rest ++ step.2) step.1

/-- `Adjacencies::bfs_level_graph` (lines 57-89): run the queue loop
from the source at level 0 and return the level map when the sink got a
level, the distinguished unreachable result (`none`) otherwise. -/
def bfsLevelGraph (db : EdgeDB) (source sink : Node) (maxDist : Option Nat)
    (fuel : Nat) : Res (Option Levels) :=
  match bfsLoop db maxDist fuel [source] [(source, 0)] with
  | .ok levels =>
    .ok (if (lookupA levels sink).isSome then some levels else none)
  | .panicked => .panicked
  | .fuelOut => .fuelOut

/-- Neighbour iteration of `Adjacencies::dfs_search_blocking_flow`
(lines 121-148).  For each materialised neighbour the code evaluates
`levels[&neighbor]` unconditionally (a missing level is a panic), then
keeps the neighbour only when its level is `levels[current] + 1` and
its nominal capacity is positive; on a successful recursive call it
updates the residual overlay and the flow distribution and returns. -/
def dfsN (levels : Levels) (current : Node)
    (rec : Node → Nat → OMap → FMap → Res (Option Nat × OMap × FMap)) :
    List (Node × Nat) → Nat → OMap → FMap → Res (Option Nat × OMap × FMap)
  | [], _, o, d => .ok (none, o, d)
  | (m, cap) :: rest, flow, o, d =>
    match lookupA levels m with
    | none => .panicked
    | some lm =>
      if lm = (lookupA levels current).getD 0 + 1 ∧ 0 < cap then
        match rec m (min flow cap) o d with
        | .ok (some pf, o', d') =>
          .ok (some pf,
               adjustCapacity (adjustCapacity o' current m (-(pf : Int))) m current pf,
               addFlow d' current m pf)
        | .ok (none, o', d') => dfsN levels current rec rest flow o' d'
        | .panicked => .panicked
        | .fuelOut => .fuelOut
      else dfsN levels current rec rest flow o d

/-- `Adjacencies::dfs_search_blocking_flow` (lines 108-151), with fuel
bounding the recursion depth.  The neighbours come from
`adjacencies_from`, i.e. nominal capacities with the overlay ignored. -/
def dfs (db : EdgeDB) (levels : Levels) (sink : Node) :
    Nat → Node → Nat → OMap → FMap → Res (Option Nat × OMap × FMap)
  | 0 => fun _ _ _ _ => .fuelOut
  | f + 1 => fun current flow o d =>
    if current = sink then .ok (some flow, o, d)
    else dfsN levels current (dfs db levels sink f) (adjacenciesFrom db current) flow o d

/-- Inner loop of `dinic_max_flow` (src/graph/flow.rs lines 113-121):
repeat the DFS at the same level graph while it returns `Some`,
accumulating the max flow. -/
def dinicInner (db : EdgeDB) (levels : Levels) (source sink : Node)
    (dfsFuel : Nat) : Nat → Nat → OMap → FMap → Res (Nat × OMap × FMap)
  | 0 => fun _ _ _ => .fuelOut
  | f + 1 => fun acc o d =>
    match dfs db levels sink dfsFuel source U256MAX o d with
    | .ok (some fl, o', d') => dinicInner db levels source sink dfsFuel f (acc + fl) o' d'
    | .ok (none, o', d') => .ok (acc, o', d')
    | .panicked => .panicked
    | .fuelOut => .fuelOut

/-- Outer loop of `dinic_max_flow` (lines 96-125): rebuild the level
graph, stop when the sink is unreachable, otherwise run the blocking
flow search.  `baseFuel` (the fuel handed to BFS, DFS and the inner
loop) stays fixed across iterations; only the outer iteration budget
decreases. -/
def dinicOuter (db : EdgeDB) (source sink : Node) (maxDist : Option Nat)
    (baseFuel : Nat) : Nat → Nat → OMap → FMap → Res (Nat × FMap)
  | 0 => fun _ _ _ => .fuelOut
  | f + 1 => fun acc o d =>
    match bfsLevelGraph db source sink maxDist baseFuel with
    | .ok none => .ok (acc, d)
    | .ok (some levels) =>
      match dinicInner db levels source sink baseFuel baseFuel acc o d with
      | .ok (acc', o', d') => dinicOuter db source sink maxDist baseFuel f acc' o' d'
      | .panicked => .panicked
      | .fuelOut => .fuelOut
    | .panicked => .panicked
    | .fuelOut => .fuelOut

/-- Lookup of a directed edge in a nested map (`used_edges[a][b]`
expressed as two optional lookups). -/
def lookup2 (used : FMap) (a b : Node) : Option Nat :=
  match lookupA used a with
  | none => none
  | some out => lookupA out b

/-- Strict order on `(neighbour, capacity)` by the key
`(capacity, node)` used by `smallest_edge_from` / `smallest_edge_to`. -/
def capNodeLtB (p q : Node × Nat) : Bool :=
  decide (p.2 < q.2) || (decide (p.2 = q.2) && nodeLtB p.1 q.1)

/-- `smallest_edge_from` (flow.rs lines 355-367): smallest outgoing
entry at `n` by `(capacity, node)`. -/
def smallestEdgeFrom (used : FMap) (n : Node) : Option (Node × Nat) :=
  match lookupA used n with
  | none => none
  | some out => minBy capNodeLtB out

/-- `smallest_edge_to` (flow.rs lines 369-382): smallest incoming entry
at `n` by `(capacity, node)`, iterating the outer map. -/
def smallestEdgeTo (used : FMap) (n : Node) : Option (Node × Nat) :=
  minBy capNodeLtB
    (used.filterMap (fun p => (lookupA p.2 n).map (fun c => (p.1, c))))

/-- Strict order on `(a, b, capacity)` triples by the key
`(capacity, a, b)` used by `smallest_edge_in_set`. -/
def capPairLtB (p q : Node × Node × Nat) : Bool :=
  decide (p.2.2 < q.2.2) ||
    (decide (p.2.2 = q.2.2) &&
      (nodeLtB p.1 q.1 ||
        (decide (p.1 = q.1) && nodeLtB p.2.1 q.2.1)))

/-- `smallest_edge_in_set` (flow.rs lines 327-353): smallest edge of the
set still present in `used_edges`, by `(capacity, from, to)`. -/
def smallestEdgeInSet (all : FMap) (es : List (Node × Node)) :
    Option (Node × Node) :=
  (minBy capPairLtB
      (es.filterMap (fun ab => (lookup2 all ab.1 ab.2).map (fun c => (ab.1, ab.2, c))))).map
    (fun x => (x.1, x.2.1))

/-- `reduce_capacity` (flow.rs lines 398-408): subtract from
`used_edges[a][b]`, removing the inner entry when it reaches zero.  The
outer key is never removed.  In the code a missing entry would panic;
all call sites guarantee presence, so the model is a no-op there. -/
def reduceCapacity (used : FMap) (a b : Node) (reduction : Nat) : FMap :=
  updateA used a (fun out =>
    match lookupA out b with
    | none => out
    | some c =>
      if c - reduction = 0 then removeA out b
      else insertA out b (c - reduction))

/-- Direction of `prune_path` propagation. -/
inductive PruneDirection where
  | forwards
  | backwards
deriving DecidableEq, Repr

/-- `prune_path` (flow.rs lines 416-437): repeatedly reduce the
smallest outgoing (forwards) or incoming (backwards) edge at `n` by at
most the remaining amount, recursing on the other endpoint, until the
amount is exhausted or no edge remains. -/
def prunePath (dir : PruneDirection) :
    Nat → FMap → Node → Nat → Res FMap
  | 0 => fun _ _ _ => .fuelOut
  | f + 1 => fun used n amount =>
    match (match dir with
           | .forwards => smallestEdgeFrom used n
           | .backwards => smallestEdgeTo used n) with
    | none => .ok used
    | some (next, cap) =>
      let c := min amount cap
      let used' :=
        match dir with
        | .forwards => reduceCapacity used n next c
        | .backwards => reduceCapacity used next n c
      match prunePath dir f used' next c with
      | .ok u2 =>
        if amount - c = 0 then .ok u2
        else prunePath dir f u2 n (amount - c)
      | .panicked => .panicked
      | .fuelOut => .fuelOut

/-- `prune_edge` (flow.rs lines 386-396): reduce `used[a][b]` by
`min(flow_to_prune, capacity)` (an absent edge is an index panic),
propagate forwards from `b` and backwards from `a`, and return the
remaining flow to prune together with the updated map. -/
def pruneEdge (fuel : Nat) (used : FMap) (a b : Node) (flowToPrune : Nat) :
    Res (Nat × FMap) :=
  match lookup2 used a b with
  | none => .panicked
  | some cap =>
    let edgeSize := min flowToPrune cap
    let u1 := reduceCapacity used a b edgeSize
    match prunePath .forwards fuel u1 b edgeSize with
    | .ok u2 =>
      match prunePath .backwards fuel u2 a edgeSize with
      | .ok u3 => .ok (flowToPrune - edgeSize, u3)
      | .panicked => .panicked
      | .fuelOut => .fuelOut
    | .panicked => .panicked
    | .fuelOut => .fuelOut

/-- Queue loop of `distance_from_source` (flow.rs lines 284-303): BFS
distances (as `i64`) over a flow-distribution map. -/
def distLoop (g : FMap) :
    Nat → List Node → List (Node × Int) → Res (List (Node × Int))
  | 0 => fun _ _ => .fuelOut
  | f + 1 => fun q dist =>
    match q with
    | [] => .ok dist
    | n :: rest =>
      let dn := (lookupA dist n).getD 0
      let step := ((lookupA g n).getD []).foldl
        (fun (acc : List (Node × Int) × List Node) tc =>
          if 0 < tc.2 ∧ (lookupA acc.1 tc.1).isNone then
            (acc.1 ++ [(tc.1, dn + 1)], acc.2 ++ [tc.1])
          else acc)
        (dist, [])
      distLoop g f (rest ++ step.2) step.1

/-- `distance_from_source` (flow.rs lines 284-303). -/
def distanceFromSource (source : Node) (g : FMap) (fuel : Nat) :
    Res (List (Node × Int)) :=
  distLoop g fuel [source] [(source, 0)]

/-- `reverse_edges` (flow.rs lines 312-325). -/
def reverseEdges (g : FMap) : FMap :=
  g.foldl
    (fun acc p =>
      p.2.foldl
        (fun acc2 tc =>
          insertA acc2 tc.1 (insertA ((lookupA acc2 tc.1).getD []) p.1 tc.2))
        acc)
    []

/-- Insert an edge into the `BTreeMap<i64, HashSet<(Node, Node)>>`
bucket structure, keeping keys in ascending order. -/
def bucketInsert : List (Int × List (Node × Node)) → Int → (Node × Node) →
    List (Int × List (Node × Node))
  | [], k, e => [(k, [e])]
  | (k', es) :: rest, k, e =>
    if k < k' then (k, [e]) :: (k', es) :: rest
    else if k = k' then (k', es ++ [e]) :: rest
    else (k', es) :: bucketInsert rest k e

/-- Bucket construction loop of `compute_edges_by_path_length`
(flow.rs lines 272-280): each used edge `(s, t)` is keyed by the
negative path length `-(from_source[s] + 1 + to_sink[t])`; a node
missing from either distance map is an index panic. -/
def buildBuckets (fromS toS : List (Node × Int)) :
    List (Node × Node) → List (Int × List (Node × Node)) →
    Res (List (Int × List (Node × Node)))
  | [], acc => .ok acc
  | (s, t) :: rest, acc =>
    match lookupA fromS s, lookupA toS t with
    | some ds, some dt => buildBuckets fromS toS rest (bucketInsert acc (-(ds + 1 + dt)) (s, t))
    | _, _ => .panicked

/-- All directed edges of a flow-distribution map, in outer-then-inner
iteration order. -/
def allEdgePairs (used : FMap) : List (Node × Node) :=
  used.foldr (fun p acc => (p.2.map (fun q => (p.1, q.1))) ++ acc) []

/-- `compute_edges_by_path_length` (flow.rs lines 264-282). -/
def computeEdgesByPathLength (source sink : Addr) (used : FMap) (fuel : Nat) :
    Res (List (Int × List (Node × Node))) :=
  match distanceFromSource (.node source) used fuel with
  | .ok fromS =>
    match distanceFromSource (.node sink) (reverseEdges used) fuel with
    | .ok toS => buildBuckets fromS toS (allEdgePairs used) []
    | .panicked => .panicked
    | .fuelOut => .fuelOut
  | .panicked => .panicked
  | .fuelOut => .fuelOut

/-- Inner while-loop of `prune_flow`'s first phase (flow.rs lines
206-216): as long as flow remains and the bucket is non-empty, pick the
smallest still-present edge of the bucket; stop at this bucket if it is
bigger than the remaining flow, else prune it fully. -/
def phase1Bucket (pruneFuel : Nat) (edgesHere : List (Node × Node)) :
    Nat → Nat → FMap → Res (Nat × FMap)
  | 0 => fun _ _ => .fuelOut
  | g + 1 => fun ftp used =>
    if 0 < ftp ∧ ¬edgesHere.isEmpty then
      match smallestEdgeInSet used edgesHere with
      | some (s, t) =>
        match lookup2 used s t with
        | some cap =>
          if ftp < cap then .ok (ftp, used)
          else
            match pruneEdge pruneFuel used s t ftp with
            | .ok (ftp', used') => phase1Bucket pruneFuel edgesHere g ftp' used'
            | .panicked => .panicked
            | .fuelOut => .fuelOut
        | none => .panicked
      | none => .ok (ftp, used)
    else .ok (ftp, used)

/-- First phase of `prune_flow` (flow.rs lines 202-217): buckets in
ascending key order, i.e. longest paths first. -/
def phase1 (pruneFuel bucketFuel : Nat) :
    List (Int × List (Node × Node)) → Nat → FMap → Res (Nat × FMap)
  | [], ftp, used => .ok (ftp, used)
  | (_, es) :: rest, ftp, used =>
    match phase1Bucket pruneFuel es bucketFuel ftp used with
    | .ok (ftp', used') => phase1 pruneFuel bucketFuel rest ftp' used'
    | .panicked => .panicked
    | .fuelOut => .fuelOut

/-- Inner loop of `prune_flow`'s second phase (flow.rs lines 223-231):
prune the bucket's edges greedily (skipping vanished ones), returning
early when nothing remains to prune. -/
def phase2Bucket (pruneFuel : Nat) :
    List (Node × Node) → Nat → FMap → Res (Nat × FMap)
  | [], ftp, used => .ok (ftp, used)
  | (a, b) :: rest, ftp, used =>
    match lookup2 used a b with
    | none => phase2Bucket pruneFuel rest ftp used
    | some _ =>
      match pruneEdge pruneFuel used a b ftp with
      | .ok (ftp', used') =>
        if ftp' = 0 then .ok (0, used')
        else phase2Bucket pruneFuel rest ftp' used'
      | .panicked => .panicked
      | .fuelOut => .fuelOut

/-- Second phase of `prune_flow` (flow.rs lines 220-236). -/
def phase2 (pruneFuel : Nat) :
    List (Int × List (Node × Node)) → Nat → FMap → Res (Nat × FMap)
  | [], ftp, used => .ok (ftp, used)
  | (_, es) :: rest, ftp, used =>
    match phase2Bucket pruneFuel es ftp used with
    | .ok (ftp', used') =>
      if ftp' = 0 then .ok (0, used')
      else phase2 pruneFuel rest ftp' used'
    | .panicked => .panicked
    | .fuelOut => .fuelOut

/-- `prune_flow` (flow.rs lines 193-238): bucket the used edges by
negative path length, run the no-split phase, then the greedy phase if
flow remains; return the flow that could not be pruned together with
the updated map (the Rust function mutates its argument). -/
def pruneFlow (source sink : Addr) (flowToPrune : Nat) (used : FMap)
    (fuel : Nat) : Res (Nat × FMap) :=
  match computeEdgesByPathLength source sink used fuel with
  | .ok buckets =>
    match phase1 fuel fuel buckets flowToPrune used with
    | .ok (ftp1, used1) =>
      if 0 < ftp1 then phase2 fuel buckets ftp1 used1
      else .ok (ftp1, used1)
    | .panicked => .panicked
    | .fuelOut => .fuelOut
  | .panicked => .panicked
  | .fuelOut => .fuelOut

/-- All directed edges with their capacities, in outer-then-inner
iteration order (the `all_edges` iterator of `reduce_transfers`). -/
def allEdgeTriples (used : FMap) : List (Node × Node × Nat) :=
  used.foldr (fun p acc => (p.2.map (fun q => (p.1, q.1, q.2))) ++ acc) []

/-- Number of distinct directed lifted edges in a flow-distribution
map. -/
def edgeCount (used : FMap) : Nat := (allEdgeTriples used).length

/-- `reduce_transfers` (flow.rs lines 240-259).  Note the while
condition tests `used_edges.len()`, the number of OUTER keys, against
the limit; the inner early return tests the flattened edge count.  The
chosen victim is the globally smallest edge by `(capacity, from, to)`,
pruned fully, its capacity accumulated as lost flow. -/
def reduceTransfers (maxT : Nat) : Nat → FMap → Res (Nat × FMap)
  | 0 => fun _ => .fuelOut
  | f + 1 => fun used =>
    if maxT < used.length then
      let triples := allEdgeTriples used
      if triples.length ≤ maxT then .ok (0, used)
      else
        match minBy capPairLtB triples with
        | some (s, t, c) =>
          match pruneEdge f used s t c with
          | .ok (_, used') =>
            match reduceTransfers maxT f used' with
            | .ok (lost, used'') => .ok (c + lost, used'')
            | .panicked => .panicked
            | .fuelOut => .fuelOut
          | .panicked => .panicked
          | .fuelOut => .fuelOut
        | none => .panicked
    else .ok (0, used)

/-- Candidate edges of one intermediate's outgoing map in
`next_full_capacity_edge` (flow.rs lines 480-493): entries whose
capacity the account balance covers; `as_trust_node` panics when the
key is not a trust node. -/
def candsFromOut (account : Addr) (balance : Nat) :
    List (Node × Nat) → Res (List Edge)
  | [] => .ok []
  | (tn, cap) :: rest =>
    if cap ≤ balance then
      match tn with
      | .trustNode to_ token =>
        match candsFromOut account balance rest with
        | .ok more => .ok (⟨account, to_, token, cap⟩ :: more)
        | .panicked => .panicked
        | .fuelOut => .fuelOut
      | _ => .panicked
    else candsFromOut account balance rest

/-- Candidate collection over all intermediates of one account in
`next_full_capacity_edge`; `used_edges[intermediate]` is an index
panic when the intermediate is not a key. -/
def collectCandidates (used : FMap) (account : Addr) (balance : Nat) :
    List Node → Res (List Edge)
  | [] => .ok []
  | intermediate :: rest =>
    match lookupA used intermediate with
    | none => .panicked
    | some out =>
      match candsFromOut account balance out with
      | .ok here =>
        match collectCandidates used account balance rest with
        | .ok more => .ok (here ++ more)
        | .panicked => .panicked
        | .fuelOut => .fuelOut
      | .panicked => .panicked
      | .fuelOut => .fuelOut

/-- `next_full_capacity_edge` (flow.rs lines 472-501): walk the
accounts in ascending address order, return the minimal candidate edge
(derived `Edge` order) of the first account that has one; no account
with a candidate is a `panic!()`. -/
def nextFullCapacityEdge (used : FMap) :
    List (Addr × Nat) → Res Edge
  | [] => .panicked
  | (account, balance) :: rest =>
    match lookupA used (.node account) with
    | none => nextFullCapacityEdge used rest
    | some v =>
      match collectCandidates used account balance (v.map (fun p => p.1)) with
      | .ok cands =>
        match minBy edgeLtB cands with
        | some e => .ok e
        | none => nextFullCapacityEdge used rest
      | .panicked => .panicked
      | .fuelOut => .fuelOut

/-- Sorted insert-or-add into the `BTreeMap<Address, U256>` of account
balances (`entry(..).or_default() += capacity`). -/
def sortedUpsertAdd : List (Addr × Nat) → Addr → Nat → List (Addr × Nat)
  | [], k, v => [(k, v)]
  | (k', v') :: rest, k, v =>
    if k < k' then (k, v) :: (k', v') :: rest
    else if k = k' then (k', v' + v) :: rest
    else (k', v') :: sortedUpsertAdd rest k v

/-- Main loop of `extract_transfers` (flow.rs lines 449-467): while the
balances are not exactly `{sink: _}`, pick the next full-capacity edge,
move its capacity between the balances, drop zero balances, and remove
the `Balance -> Trust` entry from the map (asserted to exist). -/
def extractLoop (sink : Addr) :
    Nat → FMap → List (Addr × Nat) → List Edge → Res (List Edge)
  | 0 => fun _ _ _ => .fuelOut
  | f + 1 => fun used balances acc =>
    match balances with
    | [] => .ok acc
    | (a0, _) :: brest =>
      if brest.isEmpty ∧ a0 = sink then .ok acc
      else
        match nextFullCapacityEdge used balances with
        | .ok edge =>
          match lookupA balances edge.from_ with
          | none => .panicked
          | some bal =>
            if bal < edge.capacity then .panicked
            else
              let b1 := updateA balances edge.from_ (fun x => x - edge.capacity)
              let b2 := sortedUpsertAdd b1 edge.to_ edge.capacity
              let b3 := b2.filter (fun p => decide (0 < p.2))
              match lookupA used (.balanceNode edge.from_ edge.token) with
              | none => .panicked
              | some out =>
                match lookupA out (.trustNode edge.to_ edge.token) with
                | none => .panicked
                | some _ =>
                  let used' := insertA used (.balanceNode edge.from_ edge.token)
                    (removeA out (.trustNode edge.to_ edge.token))
                  extractLoop sink f used' b3 (acc ++ [edge])
        | .panicked => .panicked
        | .fuelOut => .fuelOut

/-- `extract_transfers` (flow.rs lines 439-470): start from
`{source: amount}` and walk the flow distribution by successive
full-capacity hops. -/
def extractTransfers (source sink : Addr) (amount : Nat) (fuel : Nat)
    (used : FMap) : Res (List Edge) :=
  extractLoop sink fuel used [(source, amount)] []

/-- `find_pair_to_simplify` (flow.rs lines 503-514): first pair
`(i, j)` in lexicographic order of indices with `i ≠ j`,
`a.to = b.from`, equal token and equal capacity. -/
def findPairToSimplify (ts : List Edge) : Option (Nat × Nat) :=
  let l := ts.length
  ((List.range l).flatMap (fun x => (List.range l).map (fun y => (x, y)))).find?
    (fun ij =>
      match ts.get? ij.1, ts.get? ij.2 with
      | some a, some b =>
        decide (ij.1 ≠ ij.2) && decide (a.to_ = b.from_) &&
          decide (a.token = b.token) && decide (a.capacity = b.capacity)
      | _, _ => false)

/-- Default edge used only for the (guarded) positional accesses of the
simplification loop. -/
def defaultEdge : Edge := ⟨0, 0, 0, 0⟩

/-- `simplify_transfers` (flow.rs lines 516-526): repeatedly merge a
found pair, redirecting `transfers[i].to` to `transfers[j].to` and
removing index `j`. -/
def simplifyLoop : Nat → List Edge → Res (List Edge)
  | 0 => fun _ => .fuelOut
  | f + 1 => fun ts =>
    match findPairToSimplify ts with
    | none => .ok ts
    | some (i, j) =>
      let ti := ts.getD i defaultEdge
      let tj := ts.getD j defaultEdge
      simplifyLoop f ((ts.set i { ti with to_ := tj.to_ }).eraseIdx j)

/-- Initial `receives_to_wait_for` map of `sort_transfers` (flow.rs
lines 532-536): count one per transfer at its `to`, ensure a zero
entry at its `from`. -/
def initWaiting (ts : List Edge) : List (Addr × Nat) :=
  ts.foldl
    (fun w e =>
      let w1 := insertA w e.to_ ((lookupA w e.to_).getD 0 + 1)
      match lookupA w1 e.from_ with
      | some _ => w1
      | none => w1 ++ [(e.from_, 0)])
    []

/-- Queue loop of `sort_transfers` (flow.rs lines 539-547): pop a
transfer; emit it and decrement the wait count of its recipient when
its sender waits for nothing, else push it to the back. -/
def sortLoop : Nat → List (Addr × Nat) → List Edge → List Edge → Res (List Edge)
  | _, _, [], acc => .ok acc
  | 0, _, _ :: _, _ => .fuelOut
  | f + 1, waiting, e :: rest, acc =>
    match lookupA waiting e.from_ with
    | none => .panicked
    | some w =>
      if w = 0 then
        match lookupA waiting e.to_ with
        | none => .panicked
        | some wt => sortLoop f (insertA waiting e.to_ (wt - 1)) rest (acc ++ [e])
      else sortLoop f waiting (rest ++ [e]) acc

/-- `sort_transfers` (flow.rs lines 528-549). -/
def sortTransfers (fuel : Nat) (ts : List Edge) : Res (List Edge) :=
  sortLoop fuel (initWaiting ts) ts []

/-- Post-Dinic pipeline of `compute_flow` (flow.rs lines 50-76).  Note
that `prune_flow` and `reduce_transfers` are applied to
`used_edges.clone()` and only their scalar results are kept, so
`extract_transfers` receives the original Dinic flow distribution. -/
def postProcess (source sink : Addr) (requestedFlow : Nat)
    (maxTransfers : Option Nat) (fuel : Nat) (flow0 : Nat)
    (usedEdges : FMap) : Res (Nat × List Edge) :=
  let pruneStep : Res Nat :=
    if requestedFlow < flow0 then
      match pruneFlow source sink (flow0 - requestedFlow) usedEdges fuel with
      | .ok (stillToPrune, _) => .ok (requestedFlow + stillToPrune)
      | .panicked => .panicked
      | .fuelOut => .fuelOut
    else .ok flow0
  match pruneStep with
  | .ok flow1 =>
    let reduceStep : Res Nat :=
      match maxTransfers with
      | some m =>
        match reduceTransfers (m * 3) fuel usedEdges with
        | .ok (lost, _) => .ok (flow1 - lost)
        | .panicked => .panicked
        | .fuelOut => .fuelOut
      | none => .ok flow1
    match reduceStep with
    | .ok flow2 =>
      match (if flow2 = 0 then .ok [] else extractTransfers source sink flow2 fuel usedEdges) with
      | .ok transfers =>
        match simplifyLoop fuel transfers with
        | .ok simplified =>
          match sortTransfers fuel simplified with
          | .ok sorted => .ok (flow2, sorted)
          | .panicked => .panicked
          | .fuelOut => .fuelOut
        | .panicked => .panicked
        | .fuelOut => .fuelOut
      | .panicked => .panicked
      | .fuelOut => .fuelOut
    | .panicked => .panicked
    | .fuelOut => .fuelOut
  | .panicked => .panicked
  | .fuelOut => .fuelOut

/-- `compute_flow` (flow.rs lines 29-77): run Dinic from
`Node::Node(source)` to `Node::Node(sink)` with empty overlay and flow
distribution, then post-process. -/
def computeFlow (source sink : Addr) (db : EdgeDB) (requestedFlow : Nat)
    (maxDistance maxTransfers : Option Nat) (fuel : Nat) :
    Res (Nat × List Edge) :=
  match dinicOuter db (.node source) (.node sink) maxDistance fuel fuel 0 [] [] with
  | .ok (flow0, usedEdges) =>
    postProcess source sink requestedFlow maxTransfers fuel flow0 usedEdges
  | .panicked => .panicked
  | .fuelOut => .fuelOut

/-- Sum of the capacities of the transfers leaving `a`. -/
def sumCapsFrom (a : Addr) (ts : List Edge) : Nat :=
  ((ts.filter (fun e => decide (e.from_ = a))).map (fun e => e.capacity)).sum

/-- Sum of the capacities of the transfers arriving at `a`. -/
def sumCapsTo (a : Addr) (ts : List Edge) : Nat :=
  ((ts.filter (fun e => decide (e.to_ = a))).map (fun e => e.capacity)).sum

/-- Number of transfers of a list delivering to `a`. -/
def countTo (ts : List Edge) (a : Addr) : Nat :=
  ts.countP (fun e => decide (e.to_ = a))

/-- Address `a` of the test fixtures (six distinct addresses). -/
def adA : Addr := 1

/-- Address `b` of the test fixtures. -/
def adB : Addr := 2

/-- Address `c` of the test fixtures. -/
def adC : Addr := 3

/-- Address `d` of the test fixtures. -/
def adD : Addr := 4

/-- Address `t1` of the test fixtures. -/
def adT1 : Addr := 5

/-- Address `t2` of the test fixtures. -/
def adT2 : Addr := 6

/-- Single-edge database of the `direct` test: `(A, B, T1, 10)`. -/
def directDb : EdgeDB := [⟨adA, adB, adT1, 10⟩]

/-- Diamond database of the `diamond` test:
`(A,B,T1,10), (A,C,T2,7), (B,D,T2,9), (C,D,T1,8)`. -/
def diamondDb : EdgeDB :=
  [⟨adA, adB, adT1, 10⟩, ⟨adA, adC, adT2, 7⟩, ⟨adB, adD, adT2, 9⟩, ⟨adC, adD, adT1, 8⟩]

/-- Database of the `trust_transfer_limit` test:
`(A,B,A,10), (A,C,A,11), (B,D,A,9), (C,D,A,8)`. -/
def trustDb : EdgeDB :=
  [⟨adA, adB, adA, 10⟩, ⟨adA, adC, adA, 11⟩, ⟨adB, adD, adA, 9⟩, ⟨adC, adD, adA, 8⟩]

/-- Two-branch database for the max-distance scenario: `(A,B,T1,5)`,
`(A,D,T2,5)` and an extra outgoing edge `(B,C,T2,5)` at the
intermediate `B`. -/
def deepDb : EdgeDB :=
  [⟨adA, adB, adT1, 5⟩, ⟨adA, adD, adT2, 5⟩, ⟨adB, adC, adT2, 5⟩]

/-- Level map computed by BFS on `directDb` from `Plain A` (no
distance bound). -/
def levelsDirect : Levels :=
  [(.node adA, 0), (.balanceNode adA adT1, 1), (.trustNode adB adT1, 2), (.node adB, 3)]

/-- First DFS augmentation on the direct graph: the blocking-flow
search from `Plain A` with the empty overlay and distribution. -/
def directRun : Res (Option Nat × OMap × FMap) :=
  dfs directDb levelsDirect (.node adB) 9 (.node adA) U256MAX [] []

/-- Overlay after the first DFS augmentation on the direct graph. -/
def overlayAfterDirect : OMap :=
  match directRun with
  | .ok (_, o, _) => o
  | _ => []

/-- Flow distribution after the first DFS augmentation on the direct
graph. -/
def distAfterDirect : FMap :=
  match directRun with
  | .ok (_, _, d) => d
  | _ => []

/-- Flow value of a DFS result. -/
def resFlowOf : Res (Option Nat × OMap × FMap) → Option Nat
  | .ok (f, _, _) => f
  | _ => none

/-- The lifted three-edge flow distribution carrying 10 units along
`Plain A -> Balance(A,T1) -> Trust(B,T1) -> Plain B` (the Dinic
distribution of the direct test). -/
def directDist : FMap :=
  [(.node adA, [(.balanceNode adA adT1, 10)]),
   (.balanceNode adA adT1, [(.trustNode adB adT1, 10)]),
   (.trustNode adB adT1, [(.node adB, 10)])]

/-- One-key five-edge flow distribution used to refute the
`reduce_transfers` loop-condition claim. -/
def wideDist : FMap :=
  [(.node 0, [(.node 1, 1), (.node 2, 2), (.node 3, 3), (.node 4, 4), (.node 5, 5)])]

theorem dinicOuter_ok (db : EdgeDB) (source sink : Node) (maxDist : Option Nat)
    (baseFuel : Nat) :
    ∀ f acc o d fl dist,
      dinicOuter db source sink maxDist baseFuel f acc o d = .ok (fl, dist) →
      bfsLevelGraph db source sink maxDist baseFuel = .ok none ∧ fl = acc ∧ dist = d := by
  intro f
  induction f with
  | zero =>
    intro acc o d fl dist h
    simp [dinicOuter] at h
  | succ f ih =>
    intro acc o d fl dist h
    simp only [dinicOuter] at h
    cases hb : bfsLevelGraph db source sink maxDist baseFuel with
    | ok lv =>
      cases lv with
      | none =>
        rw [hb] at h
        dsimp only at h
        simp only [Res.ok.injEq, Prod.mk.injEq] at h
        exact ⟨rfl, h.1.symm, h.2.symm⟩
      | some levels =>
        rw [hb] at h
        dsimp only at h
        cases hi : dinicInner db levels source sink baseFuel baseFuel acc o d with
        | ok t =>
          obtain ⟨acc', o', d'⟩ := t
          rw [hi] at h
          dsimp only at h
          have hih := ih acc' o' d' fl dist h
          rw [hih.1] at hb
          simp at hb
        | panicked => rw [hi] at h; dsimp only at h; simp at h
        | fuelOut => rw [hi] at h; dsimp only at h; simp at h
    | panicked => rw [hb] at h; dsimp only at h; simp at h
    | fuelOut => rw [hb] at h; dsimp only at h; simp at h

theorem postProcess_zero (source sink : Addr) (req : Nat) (mt : Option Nat)
    (f : Nat) : postProcess source sink req mt (f + 1) 0 [] = .ok (0, []) := by
  cases mt <;> rfl

theorem computeFlow_ok_trivial (source sink : Addr) (db : EdgeDB) (req : Nat)
    (maxD maxT : Option Nat) (fuel : Nat) (r : Nat × List Edge)
    (h : computeFlow source sink db req maxD maxT fuel = .ok r) :
    r = (0, []) ∧
      bfsLevelGraph db (.node source) (.node sink) maxD fuel = .ok none := by
  cases fuel with
  | zero => simp [computeFlow, dinicOuter] at h
  | succ f =>
    simp only [computeFlow] at h
    cases hd : dinicOuter db (.node source) (.node sink) maxD (f + 1) (f + 1) 0 [] [] with
    | ok t =>
      obtain ⟨flow0, used⟩ := t
      have hdd := dinicOuter_ok db (.node source) (.node sink) maxD (f + 1)
        (f + 1) 0 [] [] flow0 used hd
      rw [hd] at h
      dsimp only at h
      rw [hdd.2.1, hdd.2.2] at h
      rw [postProcess_zero] at h
      simp only [Res.ok.injEq] at h
      exact ⟨h.symm, hdd.1⟩
    | panicked => rw [hd] at h; dsimp only at h; simp at h
    | fuelOut => rw [hd] at h; dsimp only at h; simp at h

/-- C1: for every call of `compute_flow` that returns normally, the
achieved flow is at most `requested_flow`, and the capacities of the
returned transfers leaving the source and those arriving at the sink
both sum to the achieved flow.  (On this code every normal return is
the zero-flow return: whenever the first BFS reaches the sink, the
solver loops forever because the adjacency reader never applies the
residual adjustments.) -/
theorem compute_flow_normal_return_conserves (source sink : Addr)
    (db : EdgeDB) (req : Nat) (maxD maxT : Option Nat) (fuel : Nat)
    (r : Nat × List Edge)
    (h : computeFlow source sink db req maxD maxT fuel = .ok r) :
    r.1 ≤ req ∧ sumCapsFrom source r.2 = r.1 ∧ sumCapsTo sink r.2 = r.1 := by
  have hr := (computeFlow_ok_trivial source sink db req maxD maxT fuel r h).1
  rw [hr]
  exact ⟨Nat.zero_le req, rfl, rfl⟩

/-- Witness for C1: the direct database with an unreachable sink `C`
returns normally with flow 0 and no transfers, and the conservation
properties hold there. -/
theorem compute_flow_normal_return_conserves_witness :
    computeFlow adA adC directDb 7 none none 7 = .ok (0, []) ∧
      (0 : Nat) ≤ 7 ∧ sumCapsFrom adA [] = 0 ∧ sumCapsTo adC [] = 0 := by
  refine ⟨by rfl, ?_⟩
  exact compute_flow_normal_return_conserves adA adC directDb 7 none none 7
    (0, []) (by rfl)

/-- C8: when the very first BFS does not reach the sink,
`compute_flow` returns flow 0 and an empty transfer list, for every
requested flow and both optional bounds. -/
theorem compute_flow_unreachable_zero (source sink : Addr) (db : EdgeDB)
    (req : Nat) (maxD maxT : Option Nat) (f : Nat)
    (h : bfsLevelGraph db (.node source) (.node sink) maxD (f + 1) = .ok none) :
    computeFlow source sink db req maxD maxT (f + 1) = .ok (0, []) := by
  simp only [computeFlow, dinicOuter, h]
  exact postProcess_zero source sink req maxT f

/-- Witness for C8: sink `C` is unreachable in the direct database, and
`compute_flow` returns `(0, [])` there, with a requested flow and both
bounds supplied. -/
theorem compute_flow_unreachable_zero_witness :
    computeFlow adA adC directDb U256MAX none (some 2) 7 = .ok (0, []) :=
  compute_flow_unreachable_zero adA adC directDb U256MAX none (some 2) 6
    (by rfl)

theorem lookupA_append {α β : Type} [DecidableEq α] (l1 l2 : List (α × β))
    (k : α) :
    lookupA (l1 ++ l2) k =
      match lookupA l1 k with
      | some v => some v
      | none => lookupA l2 k := by
  induction l1 with
  | nil => rfl
  | cons p rest ih =>
    obtain ⟨a, b⟩ := p
    simp only [List.cons_append, lookupA]
    split <;> simp [ih]

theorem bfsExpandAux_keep (lev : Nat) (ns : List (Node × Nat)) :
    ∀ (acc : Levels × List Node) (k : Node) (v : Nat),
      lookupA acc.1 k = some v →
      lookupA (ns.foldl
        (fun acc mc =>
          if (lookupA acc.1 mc.1).isNone ∧ 0 < mc.2 then
            (acc.1 ++ [(mc.1, lev + 1)], acc.2 ++ [mc.1])
          else acc) acc).1 k = some v := by
  induction ns with
  | nil => intro acc k v h; exact h
  | cons mc rest ih =>
    intro acc k v h
    simp only [List.foldl_cons]
    by_cases hc : (lookupA acc.1 mc.1).isNone ∧ 0 < mc.2
    · rw [if_pos hc]
      apply ih
      simp only [lookupA_append, h]
    · rw [if_neg hc]
      exact ih acc k v h

theorem bfsExpandAux_qmono (lev : Nat) (ns : List (Node × Nat)) :
    ∀ (acc : Levels × List Node) (x : Node), x ∈ acc.2 →
      x ∈ (ns.foldl
        (fun acc mc =>
          if (lookupA acc.1 mc.1).isNone ∧ 0 < mc.2 then
            (acc.1 ++ [(mc.1, lev + 1)], acc.2 ++ [mc.1])
          else acc) acc).2 := by
  induction ns with
  | nil => intro acc x h; exact h
  | cons mc rest ih =>
    intro acc x h
    simp only [List.foldl_cons]
    by_cases hc : (lookupA acc.1 mc.1).isNone ∧ 0 < mc.2
    · rw [if_pos hc]
      apply ih
      simp [h]
    · rw [if_neg hc]
      exact ih acc x h

theorem bfsExpandAux_cover (lev : Nat) (ns : List (Node × Nat)) :
    ∀ (acc : Levels × List Node) (mc : Node × Nat), mc ∈ ns → 0 < mc.2 →
      (lookupA (ns.foldl
        (fun acc mc =>
          if (lookupA acc.1 mc.1).isNone ∧ 0 < mc.2 then
            (acc.1 ++ [(mc.1, lev + 1)], acc.2 ++ [mc.1])
          else acc) acc).1 mc.1).isSome := by
  induction ns with
  | nil => intro acc mc h; simp at h
  | cons nc rest ih =>
    intro acc mc hmem hpos
    simp only [List.foldl_cons]
    rcases List.mem_cons.mp hmem with heq | hrest
    · subst heq
      by_cases hc : (lookupA acc.1 mc.1).isNone ∧ 0 < mc.2
      · rw [if_pos hc]
        have : lookupA (acc.1 ++ [(mc.1, lev + 1)]) mc.1 = some (lev + 1) := by
          rw [lookupA_append]
          rcases hc with ⟨h1, _⟩
          rw [Option.isNone_iff_eq_none] at h1
          rw [h1]
          simp [lookupA]
        rw [bfsExpandAux_keep lev rest _ mc.1 (lev + 1) this]
        rfl
      · rw [if_neg hc]
        rw [not_and] at hc
        have h2 := hc
        rcases ho : lookupA acc.1 mc.1 with _ | w
        · exact absurd hpos (h2 (by rw [ho]; rfl))
        · rw [bfsExpandAux_keep lev rest acc mc.1 w ho]
          rfl
    · by_cases hc : (lookupA acc.1 nc.1).isNone ∧ 0 < nc.2
      · rw [if_pos hc]
        exact ih _ mc hrest hpos
      · rw [if_neg hc]
        exact ih acc mc hrest hpos

theorem bfsExpandAux_dom (lev : Nat) (ns : List (Node × Nat)) :
    ∀ (acc : Levels × List Node) (n : Node),
      (lookupA (ns.foldl
        (fun acc mc =>
          if (lookupA acc.1 mc.1).isNone ∧ 0 < mc.2 then
            (acc.1 ++ [(mc.1, lev + 1)], acc.2 ++ [mc.1])
          else acc) acc).1 n).isSome →
      (lookupA acc.1 n).isSome ∨
        n ∈ (ns.foldl
          (fun acc mc =>
            if (lookupA acc.1 mc.1).isNone ∧ 0 < mc.2 then
              (acc.1 ++ [(mc.1, lev + 1)], acc.2 ++ [mc.1])
            else acc) acc).2 := by
  induction ns with
  | nil => intro acc n h; exact Or.inl h
  | cons mc rest ih =>
    intro acc n h
    simp only [List.foldl_cons] at h ⊢
    by_cases hc : (lookupA acc.1 mc.1).isNone ∧ 0 < mc.2
    · rw [if_pos hc] at h ⊢
      rcases ih _ n h with hs | hq
      · simp only [lookupA_append] at hs
        rcases ho : lookupA acc.1 n with _ | w
        · rw [ho] at hs
          simp only at hs
          have hn : n = mc.1 := by
            by_cases hnm : mc.1 = n
            · exact hnm.symm
            · simp [lookupA, hnm] at hs
          right
          apply bfsExpandAux_qmono
          simp [hn]
        · left; rfl
      · exact Or.inr hq
    · rw [if_neg hc] at h ⊢
      exact ih acc n h

theorem bfsExpand_keep (db : EdgeDB) (cur : Node) (lev : Nat) (levels : Levels)
    (k : Node) (v : Nat) (h : lookupA levels k = some v) :
    lookupA (bfsExpand db cur lev levels).1 k = some v :=
  bfsExpandAux_keep lev (adjacenciesFrom db cur) (levels, []) k v h

theorem bfsExpand_cover (db : EdgeDB) (cur : Node) (lev : Nat) (levels : Levels)
    (mc : Node × Nat) (hm : mc ∈ adjacenciesFrom db cur) (hp : 0 < mc.2) :
    (lookupA (bfsExpand db cur lev levels).1 mc.1).isSome :=
  bfsExpandAux_cover lev (adjacenciesFrom db cur) (levels, []) mc hm hp

theorem bfsExpand_dom (db : EdgeDB) (cur : Node) (lev : Nat) (levels : Levels)
    (n : Node) (h : (lookupA (bfsExpand db cur lev levels).1 n).isSome) :
    (lookupA levels n).isSome ∨ n ∈ (bfsExpand db cur lev levels).2 :=
  bfsExpandAux_dom lev (adjacenciesFrom db cur) (levels, []) n h

theorem bfsLoop_keep (db : EdgeDB) :
    ∀ f q l l' (k : Node) (v : Nat), bfsLoop db none f q l = .ok l' →
      lookupA l k = some v → lookupA l' k = some v := by
  intro f
  induction f with
  | zero => intro q l l' k v h; simp [bfsLoop] at h
  | succ f ih =>
    intro q l l' k v h hk
    cases q with
    | nil =>
      simp only [bfsLoop, Res.ok.injEq] at h
      rw [← h]; exact hk
    | cons cur rest =>
      simp only [bfsLoop] at h
      exact ih _ _ l' k v h (bfsExpand_keep db cur _ l k v hk)

theorem bfsLoop_closed (db : EdgeDB) :
    ∀ f q l l', bfsLoop db none f q l = .ok l' →
      (∀ n, (lookupA l n).isSome →
        n ∈ q ∨ ∀ mc ∈ adjacenciesFrom db n, 0 < mc.2 → (lookupA l mc.1).isSome) →
      ∀ n, (lookupA l' n).isSome →
        ∀ mc ∈ adjacenciesFrom db n, 0 < mc.2 → (lookupA l' mc.1).isSome := by
  intro f
  induction f with
  | zero => intro q l l' h; simp [bfsLoop] at h
  | succ f ih =>
    intro q l l' h hinv
    cases q with
    | nil =>
      simp only [bfsLoop, Res.ok.injEq] at h
      subst h
      intro n hn
      rcases hinv n hn with hq | hexp
      · simp at hq
      · exact hexp
    | cons cur rest =>
      simp only [bfsLoop] at h
      apply ih _ _ l' h
      intro n hn
      rcases bfsExpand_dom db cur ((lookupA l cur).getD 0) l n hn with hl | hq
      · rcases Option.isSome_iff_exists.mp hl with ⟨v, hv⟩
        rcases hinv n (by rw [hv]; rfl) with hmem | hexp
        · rcases List.mem_cons.mp hmem with hcur | hrest
          · subst hcur
            right
            intro mc hmc hpos
            exact bfsExpand_cover db n _ l mc hmc hpos
          · exact Or.inl (List.mem_append_left _ hrest)
        · right
          intro mc hmc hpos
          rcases Option.isSome_iff_exists.mp (hexp mc hmc hpos) with ⟨w, hw⟩
          rw [bfsExpand_keep db cur _ l mc.1 w hw]
          rfl
      · exact Or.inl (List.mem_append_right _ hq)

theorem bfs_initial_inv (db : EdgeDB) (src : Node) :
    ∀ n, (lookupA [(src, 0)] n).isSome →
      n ∈ [src] ∨ ∀ mc ∈ adjacenciesFrom db n, 0 < mc.2 →
        (lookupA [(src, 0)] mc.1).isSome := by
  intro n hn
  left
  by_cases hs : src = n
  · subst hs; exact List.mem_singleton.mpr rfl
  · simp [lookupA, hs] at hn

theorem diamond_bfs_not_unreachable :
    ∀ fuel, bfsLevelGraph diamondDb (.node adA) (.node adD) none fuel ≠ .ok none := by
  intro fuel h
  unfold bfsLevelGraph at h
  cases hb : bfsLoop diamondDb none fuel [.node adA] [(.node adA, 0)] with
  | ok l' =>
    rw [hb] at h
    dsimp only at h
    by_cases hs : (lookupA l' (.node adD)).isSome
    · rw [if_pos hs] at h; simp at h
    · have hsrc : lookupA l' (.node adA) = some 0 :=
        bfsLoop_keep diamondDb fuel _ _ l' (.node adA) 0 hb (by simp [lookupA])
      have hcl := bfsLoop_closed diamondDb fuel _ _ l' hb
        (bfs_initial_inv diamondDb (.node adA))
      have h1 : (lookupA l' (.node adA)).isSome := by rw [hsrc]; rfl
      have h2 := hcl (.node adA) h1 (.balanceNode adA adT1, 10) (by decide) (by decide)
      have h3 := hcl (.balanceNode adA adT1) h2 (.trustNode adB adT1, 10) (by decide) (by decide)
      have h4 := hcl (.trustNode adB adT1) h3 (.node adB, 10) (by decide) (by decide)
      have h5 := hcl (.node adB) h4 (.balanceNode adB adT2, 9) (by decide) (by decide)
      have h6 := hcl (.balanceNode adB adT2) h5 (.trustNode adD adT2, 9) (by decide) (by decide)
      have h7 := hcl (.trustNode adD adT2) h6 (.node adD, 9) (by decide) (by decide)
      exact hs h7
  | panicked => rw [hb] at h; simp at h
  | fuelOut => rw [hb] at h; simp at h

theorem trust_bfs_not_unreachable :
    ∀ fuel, bfsLevelGraph trustDb (.node adA) (.node adD) none fuel ≠ .ok none := by
  intro fuel h
  unfold bfsLevelGraph at h
  cases hb : bfsLoop trustDb none fuel [.node adA] [(.node adA, 0)] with
  | ok l' =>
    rw [hb] at h
    dsimp only at h
    by_cases hs : (lookupA l' (.node adD)).isSome
    · rw [if_pos hs] at h; simp at h
    · have hsrc : lookupA l' (.node adA) = some 0 :=
        bfsLoop_keep trustDb fuel _ _ l' (.node adA) 0 hb (by simp [lookupA])
      have hcl := bfsLoop_closed trustDb fuel _ _ l' hb
        (bfs_initial_inv trustDb (.node adA))
      have h1 : (lookupA l' (.node adA)).isSome := by rw [hsrc]; rfl
      have h2 := hcl (.node adA) h1 (.balanceNode adA adA, 11) (by decide) (by decide)
      have h3 := hcl (.balanceNode adA adA) h2 (.trustNode adB adA, 10) (by decide) (by decide)
      have h4 := hcl (.trustNode adB adA) h3 (.node adB, 10) (by decide) (by decide)
      have h5 := hcl (.node adB) h4 (.balanceNode adB adA, 9) (by decide) (by decide)
      have h6 := hcl (.balanceNode adB adA) h5 (.trustNode adD adA, 9) (by decide) (by decide)
      have h7 := hcl (.trustNode adD adA) h6 (.node adD, 9) (by decide) (by decide)
      exact hs h7
  | panicked => rw [hb] at h; simp at h
  | fuelOut => rw [hb] at h; simp at h

/-- C2 (code bug): on the diamond network with requested flow 6 the
claimed result `(6, {(A,B,T1,6), (B,D,T2,6)})` is never produced: the
code never returns at all (the DFS reads nominal capacities, so the
inner Dinic loop re-finds the same augmenting path forever).  Formally,
`compute_flow` does not return normally for any fuel, because Dinic can
only terminate when the first BFS misses the sink, and the sink is
reachable here. -/
theorem compute_flow_diamond_requested_never_returns :
    ∀ fuel, (computeFlow adA adD diamondDb 6 none none fuel).isOk = false := by
  intro fuel
  cases h : computeFlow adA adD diamondDb 6 none none fuel with
  | ok r =>
    exact absurd (computeFlow_ok_trivial adA adD diamondDb 6 none none fuel r h).2
      (diamond_bfs_not_unreachable fuel)
  | panicked => rfl
  | fuelOut => rfl

/-- C7 (code bug): the materialised trust-node capacity itself follows
the claimed sum/max rule (on the trust-limit scenario the single
outgoing edge of `Trust(D, A)` carries `max(9, 8) = 9`), but the
claimed end-to-end result `compute_flow(A, D, MAX) = 9` never happens:
the call never returns normally for any fuel, because the sink is
reachable and the solver then loops forever. -/
theorem trust_limit_reader_but_flow_never_returns :
    adjacenciesFrom trustDb (.trustNode adD adA) = [(.node adD, 9)] ∧
      ∀ fuel, (computeFlow adA adD trustDb U256MAX none none fuel).isOk = false := by
  refine ⟨by rfl, ?_⟩
  intro fuel
  cases h : computeFlow adA adD trustDb U256MAX none none fuel with
  | ok r =>
    exact absurd (computeFlow_ok_trivial adA adD trustDb U256MAX none none fuel r h).2
      (trust_bfs_not_unreachable fuel)
  | panicked => rfl
  | fuelOut => rfl

/-- C3 (code bug): the adjacency reader that BFS and DFS actually use
is `adjacencies_from`, which returns the nominal lifted capacities and
never adds the accumulated `capacity_adjustments`.  Concretely, on the
direct graph the first DFS augmentation records an adjustment of `-10`
on `Plain A -> Balance(A,T1)` (effective capacity `10 + (-10) = 0`),
yet the reader still reports `10` and a second DFS traversal pushes
another 10 units. -/
theorem adjacency_reader_ignores_overlay :
    bfsLevelGraph directDb (.node adA) (.node adB) none 99 = .ok (some levelsDirect) ∧
    resFlowOf directRun = some 10 ∧
    lookupA ((lookupA overlayAfterDirect (.node adA)).getD [])
      (.balanceNode adA adT1) = some (-10) ∧
    lookupA (adjacenciesFrom directDb (.node adA)) (.balanceNode adA adT1) = some 10 ∧
    (10 : Int) +
      ((lookupA ((lookupA overlayAfterDirect (.node adA)).getD [])
        (.balanceNode adA adT1)).getD 0) = 0 ∧
    resFlowOf (dfs directDb levelsDirect (.node adB) 9 (.node adA) U256MAX
      overlayAfterDirect distAfterDirect) = some 10 := by
  refine ⟨by rfl, by rfl, by rfl, by rfl, by rfl, by rfl⟩

/-- C6 (code bug): the DFS does not iterate
`outgoing_sorted_by_capacity` (that function is dead code); it iterates
the raw `adjacencies_from` map with nominal capacities.  After the
first augmentation on the direct graph the claimed iteration source —
effective neighbours with nonzero effective capacity in descending
order — is empty, yet the DFS still examines the saturated neighbour at
nominal capacity 10 and returns another blocking flow of 10. -/
theorem dfs_ignores_sorted_effective_order :
    outgoingEdgesSortedByCapacity directDb overlayAfterDirect (.node adA) = [] ∧
    resFlowOf (dfs directDb levelsDirect (.node adB) 9 (.node adA) U256MAX
      overlayAfterDirect distAfterDirect) = some 10 ∧
    lookupA (adjacenciesFrom directDb (.node adA)) (.balanceNode adA adT1) = some 10 := by
  refine ⟨by rfl, by rfl, by rfl⟩

theorem lookupA_mem {α β : Type} [DecidableEq α] :
    ∀ (l : List (α × β)) (k : α) (v : β), lookupA l k = some v → (k, v) ∈ l := by
  intro l
  induction l with
  | nil => intro k v h; simp [lookupA] at h
  | cons p rest ih =>
    intro k v h
    obtain ⟨a, b⟩ := p
    simp only [lookupA] at h
    by_cases hak : a = k
    · rw [if_pos hak] at h
      subst hak
      simp only [Option.some.injEq] at h
      subst h
      exact List.mem_cons_self _ _
    · rw [if_neg hak] at h
      exact List.mem_cons_of_mem _ (ih k v h)

theorem dfsN_no_panic (levels : Levels) (current : Node)
    (rec : Node → Nat → OMap → FMap → Res (Option Nat × OMap × FMap))
    (hrec : ∀ m fl o d, (lookupA levels m).isSome → rec m fl o d ≠ .panicked) :
    ∀ (ns : List (Node × Nat)) (flow : Nat) (o : OMap) (d : FMap),
      (∀ mc ∈ ns, (lookupA levels mc.1).isSome) →
      dfsN levels current rec ns flow o d ≠ .panicked := by
  intro ns
  induction ns with
  | nil => intro flow o d _; simp [dfsN]
  | cons mc rest ih =>
    intro flow o d hall
    obtain ⟨m, cap⟩ := mc
    have hm : (lookupA levels m).isSome := hall (m, cap) (List.mem_cons_self _ _)
    rcases Option.isSome_iff_exists.mp hm with ⟨lm, hlm⟩
    simp only [dfsN, hlm]
    split
    · cases hr : rec m (min flow cap) o d with
      | ok t =>
        obtain ⟨res, o', d'⟩ := t
        cases res with
        | some pf => simp
        | none =>
          exact ih flow o' d' (fun nc hnc => hall nc (List.mem_cons_of_mem _ hnc))
      | panicked =>
        exact absurd hr (hrec m (min flow cap) o d (by rw [hlm]; rfl))
      | fuelOut => simp
    · exact ih flow o d (fun nc hnc => hall nc (List.mem_cons_of_mem _ hnc))

theorem dfs_no_panic (db : EdgeDB) (levels : Levels) (sink : Node)
    (hpre : ∀ kv ∈ levels, ∀ mc ∈ adjacenciesFrom db kv.1,
      (lookupA levels mc.1).isSome) :
    ∀ (f : Nat) (current : Node) (flow : Nat) (o : OMap) (d : FMap),
      (lookupA levels current).isSome →
      dfs db levels sink f current flow o d ≠ .panicked := by
  intro f
  induction f with
  | zero => intro current flow o d _; simp [dfs]
  | succ f ih =>
    intro current flow o d hcur
    simp only [dfs]
    split
    · simp
    · rcases Option.isSome_iff_exists.mp hcur with ⟨v, hv⟩
      exact dfsN_no_panic levels current (dfs db levels sink f)
        (fun m fl o' d' hm => ih m fl o' d' hm)
        (adjacenciesFrom db current) flow o d
        (fun mc hmc => hpre (current, v) (lookupA_mem levels current v hv) mc hmc)

/-- C10: `dfs_search_blocking_flow` evaluates `levels[&neighbor]` for
every materialised neighbour without a membership check.  When every
neighbour of a level-assigned node is itself level-assigned the search
cannot panic; the precondition fails when `bfs_level_graph` stops
exploring at `max_distance`, and then the whole computation aborts
instead of skipping the neighbour: on `deepDb` with `max_distance = 3`
the DFS reaches the non-sink node `Plain B` at level 3 whose neighbour
`Balance(B, T2)` got no level, and `compute_flow` panics. -/
theorem dfs_level_lookup_unguarded :
    computeFlow adA adD deepDb U256MAX (some 3) none 99 = .panicked ∧
    ∀ (db : EdgeDB) (levels : Levels) (sink : Node) (f : Nat) (current : Node)
      (flow : Nat) (o : OMap) (d : FMap),
      (∀ kv ∈ levels, ∀ mc ∈ adjacenciesFrom db kv.1,
        (lookupA levels mc.1).isSome) →
      (lookupA levels current).isSome →
      dfs db levels sink f current flow o d ≠ .panicked := by
  refine ⟨by rfl, ?_⟩
  intro db levels sink f current flow o d hpre hcur
  exact dfs_no_panic db levels sink hpre f current flow o d hcur

/-- Witness for C10: on the direct graph with the complete level map the
precondition holds concretely and the DFS cannot panic. -/
theorem dfs_level_lookup_unguarded_witness :
    dfs directDb levelsDirect (.node adB) 9 (.node adA) U256MAX [] [] ≠ .panicked :=
  dfs_level_lookup_unguarded.2 directDb levelsDirect (.node adB) 9 (.node adA)
    U256MAX [] [] (by decide) (by decide)

/-- C4: `compute_flow` hands `prune_flow` and `reduce_transfers` fresh
clones of the Dinic distribution and keeps only their scalar results,
so the distribution that `extract_transfers` consumes is always the
original unpruned one.  The general part states that a normal
`postProcess` result is either the trivial empty one or extracted from
the ORIGINAL `used` map; the concrete part shows the clone is
observable: pruning the direct-path distribution from 10 down to 6
really modifies the copy, yet the pipeline still extracts from the
10-unit original and therefore panics, while extraction from the
pruned map would have succeeded. -/
theorem compute_flow_prunes_and_reduces_on_clones :
    (∀ (source sink : Addr) (req : Nat) (mt : Option Nat) (fuel flow0 : Nat)
      (used : FMap) (fl : Nat) (ts : List Edge),
      postProcess source sink req mt fuel flow0 used = .ok (fl, ts) →
      (fl = 0 ∧ ts = []) ∨
        ∃ raw simplified,
          extractTransfers source sink fl fuel used = .ok raw ∧
            simplifyLoop fuel raw = .ok simplified ∧
            sortTransfers fuel simplified = .ok ts) ∧
    pruneFlow adA adB 4 directDist 50 =
      .ok (0, [(.node adA, [(.balanceNode adA adT1, 6)]),
               (.balanceNode adA adT1, [(.trustNode adB adT1, 6)]),
               (.trustNode adB adT1, [(.node adB, 6)])]) ∧
    ([(.node adA, [(.balanceNode adA adT1, 6)]),
      (.balanceNode adA adT1, [(.trustNode adB adT1, 6)]),
      (.trustNode adB adT1, [(.node adB, 6)])] : FMap) ≠ directDist ∧
    postProcess adA adB 6 none 50 10 directDist = .panicked ∧
    extractTransfers adA adB 6 50
      [(.node adA, [(.balanceNode adA adT1, 6)]),
       (.balanceNode adA adT1, [(.trustNode adB adT1, 6)]),
       (.trustNode adB adT1, [(.node adB, 6)])] = .ok [⟨adA, adB, adT1, 6⟩] := by
  refine ⟨?_, by rfl, by decide, by rfl, by rfl⟩
  intro source sink req mt fuel flow0 used fl ts h
  simp only [postProcess] at h
  split at h
  · split at h
    · split at h
      · split at h
        · split at h
          · rename_i junk1 flow1v hpruneEq junk2 flow2v hreduceEq junk3
              transfersv hextractEq junk4 simplifiedv hsimplifyEq junk5
              sortedv hsortEq
            simp only [Res.ok.injEq, Prod.mk.injEq] at h
            obtain ⟨hfl, hts⟩ := h
            subst hfl
            subst hts
            by_cases hz : flow2v = 0
            · left
              rw [if_pos hz] at hextractEq
              simp only [Res.ok.injEq] at hextractEq
              subst hextractEq
              refine ⟨hz, ?_⟩
              cases fuel with
              | zero => simp [simplifyLoop] at hsimplifyEq
              | succ f =>
                have hse : simplifyLoop (f + 1) ([] : List Edge) = .ok [] := by rfl
                rw [hse] at hsimplifyEq
                simp only [Res.ok.injEq] at hsimplifyEq
                subst hsimplifyEq
                have hso : sortTransfers (f + 1) ([] : List Edge) = .ok [] := by rfl
                rw [hso] at hsortEq
                simp only [Res.ok.injEq] at hsortEq
                exact hsortEq.symm
            · right
              rw [if_neg hz] at hextractEq
              exact ⟨transfersv, simplifiedv, hextractEq, hsimplifyEq, hsortEq⟩
          · simp at h
          · simp at h
        · simp at h
        · simp at h
      · simp at h
      · simp at h
    · simp at h
    · simp at h
  · simp at h
  · simp at h

/-- Witness for C4: on the direct-path distribution with a request
above the optimum the pipeline returns normally and the transfers are
indeed extracted from the original distribution. -/
theorem compute_flow_prunes_and_reduces_on_clones_witness :
    (10 = 0 ∧ ([⟨adA, adB, adT1, 10⟩] : List Edge) = []) ∨
      ∃ raw simplified,
        extractTransfers adA adB 10 50 directDist = .ok raw ∧
          simplifyLoop 50 raw = .ok simplified ∧
          sortTransfers 50 simplified = .ok [⟨adA, adB, adT1, 10⟩] :=
  compute_flow_prunes_and_reduces_on_clones.1 adA adB 20 none 50 10 directDist
    10 [⟨adA, adB, adT1, 10⟩] (by rfl)

/-- Counterexample for C5: the `reduce_transfers` loop condition tests
the number of OUTER keys of the map, not the number of distinct lifted
edges.  On a distribution with one outer key and five edges, with
`3 · max_transfers = 3`, the edge count (5) exceeds the limit, yet the
pass prunes nothing, loses no flow and returns the map unchanged. -/
theorem reduce_transfers_loop_condition_counterexample :
    edgeCount wideDist = 5 ∧ 3 < 5 ∧
      reduceTransfers 3 37 wideDist = .ok (0, wideDist) := by
  refine ⟨by rfl, by decide, by rfl⟩

theorem updateA_length {α β : Type} [DecidableEq α] :
    ∀ (l : List (α × β)) (k : α) (f : β → β), (updateA l k f).length = l.length := by
  intro l
  induction l with
  | nil => intro k f; rfl
  | cons p rest ih =>
    intro k f
    obtain ⟨a, b⟩ := p
    simp only [updateA]
    split <;> simp [ih]

theorem reduceCapacity_length (used : FMap) (a b : Node) (r : Nat) :
    (reduceCapacity used a b r).length = used.length := by
  unfold reduceCapacity
  exact updateA_length used a _

theorem prunePath_length (dir : PruneDirection) :
    ∀ (f : Nat) (used : FMap) (n : Node) (amount : Nat) (u' : FMap),
      prunePath dir f used n amount = .ok u' → u'.length = used.length := by
  intro f
  induction f with
  | zero => intro used n amount u' h; simp [prunePath] at h
  | succ f ih =>
    intro used n amount u' h
    cases dir <;>
    · simp only [prunePath] at h
      split at h
      · simp only [Res.ok.injEq] at h
        rw [← h]
      · rename_i next cap heq
        split at h
        · rename_i u2 heq2
          have h2 := ih _ _ _ _ heq2
          split at h
          · simp only [Res.ok.injEq] at h
            rw [← h, h2, reduceCapacity_length]
          · have h3 := ih _ _ _ _ h
            rw [h3, h2, reduceCapacity_length]
        · simp at h
        · simp at h

theorem pruneEdge_length :
    ∀ (f : Nat) (used : FMap) (a b : Node) (ftp r : Nat) (u' : FMap),
      pruneEdge f used a b ftp = .ok (r, u') → u'.length = used.length := by
  intro f used a b ftp r u' h
  simp only [pruneEdge] at h
  split at h
  · simp at h
  · rename_i cap heq
    split at h
    · rename_i u2 heq2
      split at h
      · rename_i u3 heq3
        simp only [Res.ok.injEq, Prod.mk.injEq] at h
        rw [← h.2, prunePath_length .backwards _ _ _ _ _ heq3,
          prunePath_length .forwards _ _ _ _ _ heq2, reduceCapacity_length]
      · simp at h
      · simp at h
    · simp at h
    · simp at h

theorem reduceTransfers_shrinks :
    ∀ (fuel maxT : Nat) (used : FMap) (lost : Nat) (used' : FMap),
      maxT < used.length → reduceTransfers maxT fuel used = .ok (lost, used') →
      edgeCount used' ≤ maxT := by
  intro fuel
  induction fuel with
  | zero => intro maxT used lost used' hlen h; simp [reduceTransfers] at h
  | succ f ih =>
    intro maxT used lost used' hlen h
    simp only [reduceTransfers] at h
    rw [if_pos hlen] at h
    by_cases he : (allEdgeTriples used).length ≤ maxT
    · rw [if_pos he] at h
      simp only [Res.ok.injEq, Prod.mk.injEq] at h
      rw [← h.2]
      exact he
    · rw [if_neg he] at h
      split at h
      · rename_i s t c heq
        split at h
        · rename_i x used2 heq2
          split at h
          · rename_i lost3 used3 heq3
            simp only [Res.ok.injEq, Prod.mk.injEq] at h
            rw [← h.2]
            have hl2 : maxT < used2.length := by
              rw [pruneEdge_length f used s t c x used2 heq2]
              exact hlen
            exact ih maxT used2 lost3 used3 hl2 heq3
          · simp at h
          · simp at h
        · simp at h
        · simp at h
      · simp at h

/-- C5 amended: `reduce_transfers` loops while the number of outer keys
(from-nodes) of the flow distribution exceeds `3 · max_transfers`,
returning the moment the flattened edge count is within the limit;
when it does iterate, it fully prunes the globally smallest-capacity
edge (key `(capacity, from, to)`) and accumulates that capacity as lost
flow, until the edge count no longer exceeds the limit; `compute_flow`
subtracts the returned lost flow from the achieved flow. -/
theorem reduce_transfers_amended_behaviour :
    (∀ (maxT fuel : Nat) (used : FMap), used.length ≤ maxT →
        reduceTransfers maxT (fuel + 1) used = .ok (0, used)) ∧
    (∀ (maxT fuel : Nat) (used : FMap), maxT < used.length →
        edgeCount used ≤ maxT →
        reduceTransfers maxT (fuel + 1) used = .ok (0, used)) ∧
    (∀ (maxT fuel : Nat) (used : FMap) (lost : Nat) (used' : FMap),
        maxT < used.length → reduceTransfers maxT fuel used = .ok (lost, used') →
        edgeCount used' ≤ maxT) ∧
    (∀ (maxT fuel : Nat) (used : FMap), maxT < used.length →
        ¬edgeCount used ≤ maxT →
        reduceTransfers maxT (fuel + 1) used =
          (match minBy capPairLtB (allEdgeTriples used) with
           | some (s, t, c) =>
             (match pruneEdge fuel used s t c with
              | .ok (_, used2) =>
                (match reduceTransfers maxT fuel used2 with
                 | .ok (lost2, used3) => .ok (c + lost2, used3)
                 | .panicked => .panicked
                 | .fuelOut => .fuelOut)
              | .panicked => .panicked
              | .fuelOut => .fuelOut)
           | none => .panicked)) ∧
    (∀ (source sink : Addr) (req m fuel flow0 lost : Nat)
        (used used2 : FMap) (fl : Nat) (ts : List Edge), ¬req < flow0 →
        reduceTransfers (m * 3) fuel used = .ok (lost, used2) →
        postProcess source sink req (some m) fuel flow0 used = .ok (fl, ts) →
        fl = flow0 - lost) := by
  refine ⟨?_, ?_, ?_, ?_, ?_⟩
  · intro maxT fuel used hle
    simp only [reduceTransfers]
    rw [if_neg (Nat.not_lt.mpr hle)]
  · intro maxT fuel used hlen hedge
    simp only [reduceTransfers]
    rw [if_pos hlen, if_pos (show (allEdgeTriples used).length ≤ maxT from hedge)]
  · intro maxT fuel used lost used' hlen h
    exact reduceTransfers_shrinks fuel maxT used lost used' hlen h
  · intro maxT fuel used hlen hedge
    simp only [reduceTransfers]
    rw [if_pos hlen, if_neg (show ¬(allEdgeTriples used).length ≤ maxT from hedge)]
  · intro source sink req m fuel flow0 lost used used2 fl ts hreq hrt hpp
    simp only [postProcess] at hpp
    rw [if_neg hreq] at hpp
    dsimp only at hpp
    rw [hrt] at hpp
    dsimp only at hpp
    split at hpp
    · split at hpp
      · split at hpp
        · simp only [Res.ok.injEq, Prod.mk.injEq] at hpp
          exact hpp.1.symm
        · simp at hpp
        · simp at hpp
      · simp at hpp
      · simp at hpp
    · simp at hpp
    · simp at hpp

/-- Witness for C5's amended theorem: the one-key map is returned
untouched with nine units of fuel, and on the three-key direct-path
distribution with limit 0 the pass prunes down to zero remaining
edges. -/
theorem reduce_transfers_amended_behaviour_witness :
    reduceTransfers 3 9 wideDist = .ok (0, wideDist) ∧
      edgeCount [(Node.node adA, []), (Node.balanceNode adA adT1, []),
        (Node.trustNode adB adT1, [])] ≤ 0 :=
  ⟨reduce_transfers_amended_behaviour.1 3 8 wideDist (by decide),
   reduce_transfers_amended_behaviour.2.2.1 0 20 directDist 10
     [(Node.node adA, []), (Node.balanceNode adA adT1, []),
      (Node.trustNode adB adT1, [])] (by decide) (by rfl)⟩

theorem lookupA_insertA_self {α β : Type} [DecidableEq α] :
    ∀ (l : List (α × β)) (k : α) (v : β), lookupA (insertA l k v) k = some v := by
  intro l
  induction l with
  | nil => intro k v; simp [insertA, lookupA]
  | cons p rest ih =>
    intro k v
    obtain ⟨a, b⟩ := p
    simp only [insertA]
    by_cases hak : a = k
    · rw [if_pos hak]; simp [lookupA]
    · rw [if_neg hak]
      simp only [lookupA, if_neg hak]
      exact ih k v

theorem lookupA_insertA_other {α β : Type} [DecidableEq α] :
    ∀ (l : List (α × β)) (k k' : α) (v : β), k ≠ k' →
      lookupA (insertA l k v) k' = lookupA l k' := by
  intro l
  induction l with
  | nil => intro k k' v hkk; simp [insertA, lookupA, hkk]
  | cons p rest ih =>
    intro k k' v hkk
    obtain ⟨a, b⟩ := p
    simp only [insertA]
    by_cases hak : a = k
    · rw [if_pos hak]
      subst hak
      simp [lookupA, hkk]
    · rw [if_neg hak]
      simp only [lookupA]
      by_cases hak' : a = k'
      · rw [if_pos hak', if_pos hak']
      · rw [if_neg hak', if_neg hak']
        exact ih k k' v hkk

theorem countTo_cons (e : Edge) (l : List Edge) (a : Addr) :
    countTo (e :: l) a = countTo l a + (if e.to_ = a then 1 else 0) := by
  simp only [countTo, List.countP_cons]
  split <;> rename_i hb
  · rw [if_pos (of_decide_eq_true hb)]
  · rw [if_neg (of_decide_eq_false (Bool.of_not_eq_true hb))]

theorem countTo_append_single (p : List Edge) (e : Edge) (a : Addr) :
    countTo (p ++ [e]) a = countTo p a + (if e.to_ = a then 1 else 0) := by
  simp only [countTo, List.countP_append]
  congr 1
  have := countTo_cons e [] a
  simpa [countTo] using this

theorem countTo_eq_zero_iff (l : List Edge) (a : Addr) :
    countTo l a = 0 ↔ ∀ x ∈ l, x.to_ ≠ a := by
  simp [countTo, List.countP_eq_zero]

theorem initWaiting_aux :
    ∀ (ts : List Edge) (w0 : List (Addr × Nat)) (p : List Edge),
      (∀ a x, lookupA w0 a = some x → x = countTo p a) →
      (∀ a, lookupA w0 a = none → countTo p a = 0) →
      (∀ a x, lookupA (ts.foldl
        (fun w e =>
          let w1 := insertA w e.to_ ((lookupA w e.to_).getD 0 + 1)
          match lookupA w1 e.from_ with
          | some _ => w1
          | none => w1 ++ [(e.from_, 0)]) w0) a = some x →
        x = countTo (p ++ ts) a) ∧
      (∀ a, lookupA (ts.foldl
        (fun w e =>
          let w1 := insertA w e.to_ ((lookupA w e.to_).getD 0 + 1)
          match lookupA w1 e.from_ with
          | some _ => w1
          | none => w1 ++ [(e.from_, 0)]) w0) a = none →
        countTo (p ++ ts) a = 0) := by
  intro ts
  induction ts with
  | nil =>
    intro w0 p hsome hnone
    constructor
    · intro a x h
      simpa using hsome a x h
    · intro a h
      simpa using hnone a h
  | cons e rest ih =>
    intro w0 p hsome hnone
    have hg : ((lookupA w0 e.to_).getD 0) = countTo p e.to_ := by
      cases hl : lookupA w0 e.to_ with
      | none => simpa using (hnone e.to_ hl).symm
      | some x => simpa using hsome e.to_ x hl
    have hw1some : ∀ a x,
        lookupA (insertA w0 e.to_ ((lookupA w0 e.to_).getD 0 + 1)) a = some x →
        x = countTo (p ++ [e]) a := by
      intro a x h
      by_cases hea : e.to_ = a
      · subst hea
        rw [lookupA_insertA_self] at h
        simp only [Option.some.injEq] at h
        rw [← h, hg, countTo_append_single]
        simp
      · rw [lookupA_insertA_other _ _ _ _ hea] at h
        rw [countTo_append_single, if_neg hea]
        simpa using hsome a x h
    have hw1none : ∀ a,
        lookupA (insertA w0 e.to_ ((lookupA w0 e.to_).getD 0 + 1)) a = none →
        countTo (p ++ [e]) a = 0 := by
      intro a h
      by_cases hea : e.to_ = a
      · subst hea
        rw [lookupA_insertA_self] at h
        simp at h
      · rw [lookupA_insertA_other _ _ _ _ hea] at h
        rw [countTo_append_single, if_neg hea]
        simpa using hnone a h
    have hmain := fun (w' : List (Addr × Nat))
        (hs : ∀ a x, lookupA w' a = some x → x = countTo (p ++ [e]) a)
        (hn : ∀ a, lookupA w' a = none → countTo (p ++ [e]) a = 0) =>
      ih w' (p ++ [e]) hs hn
    simp only [List.foldl_cons]
    have hassoc : (p ++ [e]) ++ rest = p ++ e :: rest := by simp
    cases hf : lookupA (insertA w0 e.to_ ((lookupA w0 e.to_).getD 0 + 1)) e.from_ with
    | some y =>
      have := hmain _ hw1some hw1none
      simp only [hf] at *
      rw [← hassoc]
      exact this
    | none =>
      have hs2 : ∀ a x,
          lookupA (insertA w0 e.to_ ((lookupA w0 e.to_).getD 0 + 1) ++ [(e.from_, 0)]) a = some x →
          x = countTo (p ++ [e]) a := by
        intro a x h
        rw [lookupA_append] at h
        cases hl : lookupA (insertA w0 e.to_ ((lookupA w0 e.to_).getD 0 + 1)) a with
        | some z =>
          rw [hl] at h
          simp only [Option.some.injEq] at h
          rw [h] at hl
          exact hw1some a x hl
        | none =>
          rw [hl] at h
          simp only [lookupA] at h
          by_cases hfa : e.from_ = a
          · rw [if_pos hfa] at h
            simp only [Option.some.injEq] at h
            rw [← h]
            exact (hw1none a hl).symm
          · rw [if_neg hfa] at h
            simp at h
      have hn2 : ∀ a,
          lookupA (insertA w0 e.to_ ((lookupA w0 e.to_).getD 0 + 1) ++ [(e.from_, 0)]) a = none →
          countTo (p ++ [e]) a = 0 := by
        intro a h
        rw [lookupA_append] at h
        cases hl : lookupA (insertA w0 e.to_ ((lookupA w0 e.to_).getD 0 + 1)) a with
        | some z => rw [hl] at h; simp at h
        | none => exact hw1none a hl
      have := hmain _ hs2 hn2
      simp only [hf] at *
      rw [← hassoc]
      exact this

theorem initWaiting_count (ts : List Edge) :
    ∀ a x, lookupA (initWaiting ts) a = some x → x = countTo ts a := by
  intro a x h
  have := (initWaiting_aux ts [] []
    (by intro a x h; simp [lookupA] at h)
    (by intro a h; simp [countTo])).1 a x h
  simpa using this

theorem sortLoop_ordered :
    ∀ (f : Nat) (waiting : List (Addr × Nat)) (queue acc res : List Edge),
      (∀ a w, lookupA waiting a = some w → w = countTo queue a) →
      (∀ j (hj : j < acc.length) x,
        (x ∈ acc.drop (j + 1) ∨ x ∈ queue) → x.to_ ≠ (acc.get ⟨j, hj⟩).from_) →
      (∀ y ∈ acc, y.to_ ≠ y.from_) →
      sortLoop f waiting queue acc = .ok res →
      (∀ j (hj : j < res.length) x,
        x ∈ res.drop (j + 1) → x.to_ ≠ (res.get ⟨j, hj⟩).from_) ∧
      (∀ y ∈ res, y.to_ ≠ y.from_) := by
  intro f
  induction f with
  | zero =>
    intro waiting queue acc res hW hP hQ h
    cases queue with
    | nil =>
      simp only [sortLoop, Res.ok.injEq] at h
      subst h
      exact ⟨fun j hj x hx => hP j hj x (Or.inl hx), hQ⟩
    | cons e rest => simp [sortLoop] at h
  | succ f ih =>
    intro waiting queue acc res hW hP hQ h
    cases queue with
    | nil =>
      simp only [sortLoop, Res.ok.injEq] at h
      subst h
      exact ⟨fun j hj x hx => hP j hj x (Or.inl hx), hQ⟩
    | cons e rest =>
      simp only [sortLoop] at h
      cases hwf : lookupA waiting e.from_ with
      | none => rw [hwf] at h; simp at h
      | some w =>
        rw [hwf] at h
        dsimp only at h
        by_cases hw0 : w = 0
        · rw [if_pos hw0] at h
          cases hwt : lookupA waiting e.to_ with
          | none => rw [hwt] at h; simp at h
          | some wt =>
            rw [hwt] at h
            dsimp only at h
            have hcz : countTo (e :: rest) e.from_ = 0 := by
              have hwc := hW e.from_ w hwf
              rw [hw0] at hwc
              exact hwc.symm
            have hne : e.to_ ≠ e.from_ := by
              intro hcontra
              rw [countTo_cons, if_pos hcontra] at hcz
              omega
            have hrest0 : ∀ x ∈ rest, x.to_ ≠ e.from_ := by
              rw [countTo_cons, if_neg hne] at hcz
              exact (countTo_eq_zero_iff rest e.from_).mp (by omega)
            refine ih (insertA waiting e.to_ (wt - 1)) rest (acc ++ [e]) res
              ?_ ?_ ?_ h
            · intro a w' hl
              by_cases hea : e.to_ = a
              · subst hea
                rw [lookupA_insertA_self] at hl
                simp only [Option.some.injEq] at hl
                have hwtc := hW e.to_ wt hwt
                rw [countTo_cons, if_pos rfl] at hwtc
                omega
              · rw [lookupA_insertA_other _ _ _ _ hea] at hl
                have := hW a w' hl
                rw [countTo_cons, if_neg hea] at this
                omega
            · intro j hj x hx
              by_cases hjl : j < acc.length
              · have hget : (acc ++ [e]).get ⟨j, hj⟩ = acc.get ⟨j, hjl⟩ := by
                  simp only [List.get_eq_getElem]
                  exact List.getElem_append_left hjl
                rw [hget]
                have hdrop : (acc ++ [e]).drop (j + 1) = acc.drop (j + 1) ++ [e] := by
                  rw [List.drop_append_eq_append_drop,
                    Nat.sub_eq_zero_of_le (by omega), List.drop_zero]
                rcases hx with hx | hx
                · rw [hdrop] at hx
                  rcases List.mem_append.mp hx with hx | hx
                  · exact hP j hjl x (Or.inl hx)
                  · rw [List.mem_singleton.mp hx]
                    exact hP j hjl e (Or.inr (List.mem_cons_self _ _))
                · exact hP j hjl x (Or.inr (List.mem_cons_of_mem _ hx))
              · have hje : j = acc.length := by
                  have := hj
                  simp only [List.length_append, List.length_singleton] at this
                  omega
                have hget : (acc ++ [e]).get ⟨j, hj⟩ = e := by
                  subst hje
                  simp [List.get_eq_getElem]
                rw [hget]
                rcases hx with hx | hx
                · exfalso
                  have : (acc ++ [e]).drop (j + 1) = [] := by
                    apply List.drop_eq_nil_of_le
                    simp only [List.length_append, List.length_singleton]
                    omega
                  rw [this] at hx
                  simp at hx
                · exact hrest0 x hx
            · intro y hy
              rcases List.mem_append.mp hy with hy | hy
              · exact hQ y hy
              · rw [List.mem_singleton.mp hy]
                exact hne
        · rw [if_neg hw0] at h
          refine ih waiting (rest ++ [e]) acc res ?_ ?_ hQ h
          · intro a w' hl
            have := hW a w' hl
            rw [countTo_cons] at this
            rw [countTo_append_single]
            omega
          · intro j hj x hx
            refine hP j hj x ?_
            rcases hx with hx | hx
            · exact Or.inl hx
            · rcases List.mem_append.mp hx with hx | hx
              · exact Or.inr (List.mem_cons_of_mem _ hx)
              · rw [List.mem_singleton.mp hx]
                exact Or.inr (List.mem_cons_self _ _)

theorem mem_drop_of_get (l : List Edge) (i j : Nat) (hji : j < i)
    (hi : i < l.length) : l.get ⟨i, hi⟩ ∈ l.drop (j + 1) := by
  have h1 : i - (j + 1) < (l.drop (j + 1)).length := by
    rw [List.length_drop]
    omega
  have h2 : (l.drop (j + 1)).get ⟨i - (j + 1), h1⟩ = l.get ⟨i, hi⟩ := by
    simp only [List.get_eq_getElem, List.getElem_drop]
    congr 1
    omega
  rw [← h2]
  exact List.get_mem _ _ _

/-- C9: in the list returned by `sort_transfers`, whenever transfer `x`
delivers to the sender of transfer `y` (`x.to = y.from`), `x` is
emitted strictly before `y` — the receive-before-send rule — whenever
the sort loop terminates normally. -/
theorem sort_transfers_receive_before_send (fuel : Nat) (ts res : List Edge)
    (h : sortTransfers fuel ts = .ok res) :
    ∀ i j (hi : i < res.length) (hj : j < res.length),
      (res.get ⟨i, hi⟩).to_ = (res.get ⟨j, hj⟩).from_ → i < j := by
  have hord := sortLoop_ordered fuel (initWaiting ts) ts [] res
    (fun a w hl => initWaiting_count ts a w hl)
    (by intro j hj x hx; simp at hj)
    (by intro y hy; simp at hy)
    h
  intro i j hi hj hxy
  by_contra hij
  rcases Nat.lt_or_ge j i with hlt | hge
  · exact hord.1 j hj (res.get ⟨i, hi⟩) (mem_drop_of_get res i j hlt hi) hxy
  · have hij' : i = j := by omega
    subst hij'
    exact hord.2 (res.get ⟨i, hi⟩) (List.get_mem _ _ _) hxy

/-- Witness for C9: sorting the two-transfer chain emits the `A -> B`
transfer before the dependent `B -> C` transfer. -/
theorem sort_transfers_receive_before_send_witness :
    sortTransfers 9 [⟨adB, adC, adT1, 5⟩, ⟨adA, adB, adT2, 5⟩] =
      .ok [⟨adA, adB, adT2, 5⟩, ⟨adB, adC, adT1, 5⟩] ∧ 0 < 1 := by
  refine ⟨by rfl, ?_⟩
  exact sort_transfers_receive_before_send 9
    [⟨adB, adC, adT1, 5⟩, ⟨adA, adB, adT2, 5⟩]
    [⟨adA, adB, adT2, 5⟩, ⟨adB, adC, adT1, 5⟩] (by rfl) 0 1 (by decide)
    (by decide) (by rfl)
